import Mathlib

/-!
Verification development for the TrinityCore `TaskScheduler`
(`src/common/Utilities/TaskScheduler.h`).

Time is modelled in milliseconds as `Nat` (the code uses a monotonic
steady clock; only differences and comparisons of time points matter).
The task handlers and async callables are `std::function` values in the
code; here they are deep-embedded as identifiers resolved through an
environment, so that the scheduler semantics stays executable.

Declarations whose bodies live in `TaskScheduler.cpp` (not part of the
sources) are modelled from the specification and marked as such in their
doc comments.
-/

namespace TaskSched

/-- A scheduler-level operation, first-order so that deferred closures
on the async queue can be represented as data.  Each constructor
corresponds to one public manipulation method of `TaskScheduler`
(`Schedule`, `Async`, `CancelAll`, `CancelGroup`, `CancelGroupsOf`,
`DelayAll`, `DelayGroup`, `RescheduleAll`, `RescheduleGroup`).
Handlers and async callables are referenced by identifier. -/
inductive SchedOp where
  | schedule (time : Nat) (group : Option Nat) (handler : Nat)
  | async (callable : Nat)
  | cancelAll
  | cancelGroup (group : Nat)
  | cancelGroupsOf (groups : List Nat)
  | delayAll (duration : Nat)
  | delayGroup (group : Nat) (duration : Nat)
  | rescheduleAll (duration : Nat)
  | rescheduleGroup (group : Nat) (duration : Nat)
deriving Repr, DecidableEq

/-- `TaskScheduler::Task` (TaskScheduler.h lines 67-116): deadline
`_end`, nominal `_duration`, optional `_group` tag, repeat counter
`_repeated`, and the handler `_task` (deep-embedded as an identifier). -/
structure Task where
  endT : Nat
  duration : Nat
  group : Option Nat
  repeated : Nat
  handler : Nat
deriving Repr, DecidableEq

/-- `Task::operator<=>` (TaskScheduler.h lines 100-103): tasks are
weakly ordered by their `_end` member alone. -/
def Task.cmpWeak (a b : Task) : Ordering :=
  compare a.endT b.endT

/-- `Task::operator==` (TaskScheduler.h lines 106-109): two tasks
compare equal iff their `_end` members are equal. -/
def Task.eqEnd (a b : Task) : Bool :=
  a.endT == b.endT

/-- `Task::IsInGroup` (TaskScheduler.h lines 112-115): true iff the
task's optional group holds exactly the given group. -/
def Task.isInGroup (t : Task) (g : Nat) : Bool :=
  t.group == some g

/-- `TaskScheduler::Compare` (TaskScheduler.h lines 121-127): the
multiset comparator, `(*left) < (*right)`, i.e. strictly smaller
deadline. -/
def compareLess (l r : Task) : Bool :=
  Task.cmpWeak l r == Ordering.lt

/-- `TaskQueue::Push` on the ordered multiset container (TaskScheduler.h
line 131): `std::multiset::insert` places an element after all elements
not greater than it, so insertion among equal deadlines is stable
(new element goes last). -/
def push : List Task → Task → List Task
  | [], t => [t]
  | x :: xs, t => if t.endT < x.endT then t :: x :: xs else x :: push xs t

/-- `TaskQueue::RemoveIf`: modelled from the spec: "removes every
element for which `pred` returns true" (the body is in
TaskScheduler.cpp, not part of the sources). -/
def removeIf (q : List Task) (pred : Task → Bool) : List Task :=
  q.filter (fun t => !(pred t))

/-- `TaskQueue::ModifyIf`: modelled from the spec: "for every element
where `pred` returns true, re-position it ... extract matching nodes,
re-insert them" (the body is in TaskScheduler.cpp, not part of the
sources).  The combined predicate-with-mutation is represented as
`Task → Option Task`: `none` leaves the element untouched, `some t'`
extracts it, mutates it to `t'` and re-inserts it. -/
def modifyIf (q : List Task) (f : Task → Option Task) : List Task :=
  (q.filterMap f).foldl push (q.filter (fun t => (f t).isNone))

/-- An entry of the `AsyncHolder` queue (TaskScheduler.h lines 160-164):
either a user callable registered through `Async` (by identifier), or a
deferred scheduler mutation enqueued by `TaskContext::Dispatch`
(modelled from the spec: "Enqueues a closure
`(scheduler) → scheduler.op(...)` onto the Scheduler's AsyncQueue"). -/
inductive AsyncEntry where
  | user (callable : Nat)
  | defer (op : SchedOp)
deriving Repr, DecidableEq

/-- The `TaskScheduler` state: current time `_now`, the deadline-ordered
task holder (kept as a sorted list with stable insertion), the async
holder, and the installed validator.  The validator is a nullary
predicate; it is modelled by the verdict it returns
(`EmptyValidator`, TaskScheduler.h lines 168-171, is `true`). -/
structure Sched where
  now : Nat
  taskQueue : List Task
  asyncQueue : List AsyncEntry
  validator : Bool
deriving Repr, DecidableEq

/-- A `TaskContext` method call made by a handler: `Repeat` (with
`none` meaning the no-argument overload that reuses `_task->_duration`,
TaskScheduler.h lines 380-383), the in-place `SetGroup`/`ClearGroup`,
or any other mutation method, which is routed through `Dispatch` as a
deferred scheduler operation (modelled from the spec, §4.3). -/
inductive CtxMut where
  | mrepeat (newDuration : Option Nat)
  | msetGroup (g : Nat)
  | mclearGroup
  | mdefer (op : SchedOp)
deriving Repr, DecidableEq

/-- The environment resolving deep-embedded callables: `handlers`
maps a handler identifier to the sequence of `TaskContext` method calls
the handler performs, `asyncs` maps an async-callable identifier to the
sequence of scheduler operations it performs. -/
structure Env where
  handlers : Nat → List CtxMut
  asyncs : Nat → List SchedOp

/-- The observable state of a live `TaskContext` together with its
owner: `sched` is the owning scheduler seen through the weak reference
(`none` once the scheduler has been destroyed, cf. `self_reference`,
TaskScheduler.h line 152), `task` the shared task object, `consumed`
the shared consumed flag, `repeatSignal` the pending re-insertion
signal for the dispatch loop, and `asserted` records that
`AssertOnConsumed` has fired. -/
structure CtxW where
  sched : Option Sched
  task : Task
  consumed : Bool
  repeatSignal : Option Nat
  asserted : Bool
deriving Repr, DecidableEq

/-- `TaskContext::IsExpired` (declared TaskScheduler.h line 357):
modelled from the spec: "returns true iff the owning Scheduler has been
destroyed". -/
def ctxIsExpired (cw : CtxW) : Bool :=
  cw.sched.isNone

/-- `TaskContext::GetRepeatCounter` (declared TaskScheduler.h line
369): the task's current repeat counter. -/
def ctxGetRepeatCounter (cw : CtxW) : Nat :=
  cw.task.repeated

/-- One `TaskContext` method call.  Modelled from the spec (the bodies
are in TaskScheduler.cpp, not part of the sources): a method invoked
after the Scheduler has been destroyed is a silent no-op (§7); after a
detected contract violation (assertion) nothing further happens;
`Repeat*` on a fresh context marks the shared consumed flag, updates
the task (new duration, deadline advanced by the new duration as in the
self-repeat scenario of §8, repeat counter incremented) and signals the
dispatch loop; `Repeat*` on a consumed context triggers
`AssertOnConsumed` (TaskScheduler.h line 488); `SetGroup`/`ClearGroup`
mutate the task's group in place (§4.3); every other mutation method is
routed through `Dispatch`, which enqueues the deferred operation onto
the owner's async queue (§4.3). -/
def ctxApply (cw : CtxW) (m : CtxMut) : CtxW :=
  match cw.sched with
  | none => cw
  | some s =>
    if cw.asserted then cw
    else
      match m with
      | .mrepeat d =>
        if cw.consumed then { cw with asserted := true }
        else
          let eff := d.getD cw.task.duration
          { cw with
              consumed := true
              repeatSignal := some eff
              task := { cw.task with
                          duration := eff
                          endT := cw.task.endT + eff
                          repeated := cw.task.repeated + 1 } }
      | .msetGroup g => { cw with task := { cw.task with group := some g } }
      | .mclearGroup => { cw with task := { cw.task with group := none } }
      | .mdefer op =>
        { cw with sched := some { s with asyncQueue := s.asyncQueue ++ [.defer op] } }

/-- `TaskScheduler::Schedule(time, task)` / `Schedule(time, group,
task)` (TaskScheduler.h lines 216-228): insert a task with deadline
`_now + time`, duration `time`, the given optional group, repeat
counter 0. -/
def scheduleOp (s : Sched) (time : Nat) (group : Option Nat) (handler : Nat) : Sched :=
  { s with taskQueue := push s.taskQueue ⟨s.now + time, time, group, 0, handler⟩ }

/-- `TaskScheduler::RescheduleAll` (declared TaskScheduler.h line 281):
modelled from the spec: "for every task, set `deadline ← now + Δ` and
`duration ← Δ`", applied through `ModifyIf`. -/
def RescheduleAll (s : Sched) (d : Nat) : Sched :=
  { s with taskQueue :=
      modifyIf s.taskQueue (fun t => some { t with endT := s.now + d, duration := d }) }

/-- The remaining scheduler-level operations, modelled from the spec
(§4.2 Manipulation; the bodies are in TaskScheduler.cpp, not part of
the sources): `Async` appends to the async holder, `CancelAll` clears
the queue, `CancelGroup`/`CancelGroupsOf` remove by group membership,
`DelayAll`/`DelayGroup` add to deadlines through `ModifyIf`,
`RescheduleAll`/`RescheduleGroup` reset deadline and duration. -/
def applySchedOp (s : Sched) (op : SchedOp) : Sched :=
  match op with
  | .schedule time group handler => scheduleOp s time group handler
  | .async callable => { s with asyncQueue := s.asyncQueue ++ [.user callable] }
  | .cancelAll => { s with taskQueue := [] }
  | .cancelGroup g => { s with taskQueue := removeIf s.taskQueue (fun t => t.isInGroup g) }
  | .cancelGroupsOf gs =>
    { s with taskQueue := removeIf s.taskQueue (fun t => gs.any (fun g => t.isInGroup g)) }
  | .delayAll d =>
    { s with taskQueue := modifyIf s.taskQueue (fun t => some { t with endT := t.endT + d }) }
  | .delayGroup g d =>
    { s with taskQueue :=
        modifyIf s.taskQueue (fun t =>
          if t.isInGroup g then some { t with endT := t.endT + d } else none) }
  | .rescheduleAll d => RescheduleAll s d
  | .rescheduleGroup g d =>
    { s with taskQueue :=
        modifyIf s.taskQueue (fun t =>
          if t.isInGroup g then some { t with endT := s.now + d, duration := d } else none) }

/-- Execute one async-holder entry: a deferred context mutation applies
the recorded scheduler operation; a user callable performs its sequence
of scheduler operations.  Modelled from the spec (§2 data flow, §4.4). -/
def runAsyncEntry (env : Env) (s : Sched) (e : AsyncEntry) : Sched :=
  match e with
  | .defer op => applySchedOp s op
  | .user a => (env.asyncs a).foldl applySchedOp s

/-- Result of draining the async holder: the resulting scheduler, the
log of executed entries in execution order, and whether the drain
emptied the holder within the given fuel. -/
structure AsyncRes where
  sched : Sched
  log : List AsyncEntry
  completed : Bool
deriving Repr, DecidableEq

/-- Drain the async holder front-first, modelled from the spec (§4.2
step 2, §4.4): "repeatedly pop the front and invoke it, until empty.
New asyncs enqueued by an async callback are also drained in the same
tick (they run in order)".  The drain is a loop; `fuel` bounds the
number of iterations (the C++ loop does not terminate either if every
callable enqueues another one). -/
def drainAsyncs (env : Env) : Nat → Sched → AsyncRes
  | 0, s => ⟨s, [], s.asyncQueue.isEmpty⟩
  | fuel + 1, s =>
    match s.asyncQueue with
    | [] => ⟨s, [], true⟩
    | e :: rest =>
      let r := drainAsyncs env fuel (runAsyncEntry env { s with asyncQueue := rest } e)
      ⟨r.sched, e :: r.log, r.completed⟩

/-- One iteration of the due-task drain (§4.2 step 3, modelled from the
spec; `TaskScheduler::Dispatch` is declared at TaskScheduler.h line
314): if the queue is non-empty and the earliest task is due, consult
the validator; a false verdict stops the drain without popping;
otherwise pop the task, run its handler with a fresh non-consumed
context, then apply the context's deferred effect: re-insert the
(updated) task if `Repeat*` was signalled, else discard it.  Returns
`none` when the drain must stop, otherwise the new state and the
dispatched task. -/
def dispatchStep (env : Env) (s : Sched) : Option (Sched × Task) :=
  match s.taskQueue with
  | [] => none
  | t :: rest =>
    if t.endT ≤ s.now then
      if s.validator then
        let cw0 : CtxW :=
          ⟨some { s with taskQueue := rest }, t, false, none, false⟩
        let cw := (env.handlers t.handler).foldl ctxApply cw0
        let s1 := cw.sched.getD { s with taskQueue := rest }
        match cw.repeatSignal with
        | some _ => some ({ s1 with taskQueue := push s1.taskQueue cw.task }, t)
        | none => some (s1, t)
      else none
    else none

/-- Result of the due-task drain: the resulting scheduler and the tasks
dispatched, in dispatch order (each recorded as popped, i.e. with the
repeat counter the handler observes through `GetRepeatCounter`). -/
structure TaskRes where
  sched : Sched
  fired : List Task
deriving Repr, DecidableEq

/-- Drain all due tasks (§4.2 step 3, modelled from the spec), iterating
`dispatchStep` until it stops; `fuel` bounds the number of iterations
(a task repeating itself with duration 0 loops in the C++ code too). -/
def drainTasks (env : Env) : Nat → Sched → TaskRes
  | 0, s => ⟨s, []⟩
  | fuel + 1, s =>
    match dispatchStep env s with
    | none => ⟨s, []⟩
    | some (s', t) =>
      let r := drainTasks env fuel s'
      ⟨r.sched, t :: r.fired⟩

/-- An observable event of one tick: an async entry ran, or a task
fired. -/
inductive TickEv where
  | arun (e : AsyncEntry)
  | fired (t : Task)
deriving Repr, DecidableEq

/-- Result of one tick: final scheduler, the event log in order, and
whether the async drain completed within its fuel. -/
structure TickRes where
  sched : Sched
  events : List TickEv
  asyncsDone : Bool
deriving Repr, DecidableEq

/-- `TaskScheduler::Update(difftime)` (declared TaskScheduler.h line
208), modelled from the spec (§4.2 Tick algorithm): advance `now` by
the elapsed duration, drain the async holder, then drain the due
tasks. -/
def tick (env : Env) (dt fuelA fuelT : Nat) (s : Sched) : TickRes :=
  let s1 : Sched := { s with now := s.now + dt }
  let ra := drainAsyncs env fuelA s1
  let rt := drainTasks env fuelT ra.sched
  ⟨rt.sched, ra.log.map TickEv.arun ++ rt.fired.map TickEv.fired, ra.completed⟩

/-! ### Queue lemmas -/

/-- The task holder invariant: deadlines are pairwise non-decreasing. -/
def SortedQ (q : List Task) : Prop :=
  List.Pairwise (fun a b => a.endT ≤ b.endT) q

theorem mem_push {q : List Task} {t x : Task} :
    x ∈ push q t ↔ x ∈ q ∨ x = t := by
  induction q with
  | nil => simp [push]
  | cons y ys ih =>
    by_cases h : t.endT < y.endT
    · simp [push, h]
      tauto
    · simp [push, h, ih]
      tauto

theorem push_append_of_le {q : List Task} {t : Task}
    (h : ∀ x ∈ q, x.endT ≤ t.endT) : push q t = q ++ [t] := by
  induction q with
  | nil => rfl
  | cons y ys ih =>
    have hy : ¬ t.endT < y.endT := Nat.not_lt.mpr (h y (by simp))
    simp only [push, if_neg hy, List.cons_append, List.cons.injEq, true_and]
    exact ih (fun x hx => h x (by simp [hx]))

theorem push_sorted {q : List Task} {t : Task} (h : SortedQ q) :
    SortedQ (push q t) := by
  induction q with
  | nil => simp [push, SortedQ]
  | cons y ys ih =>
    have hy := (List.pairwise_cons.mp h).1
    have hys := (List.pairwise_cons.mp h).2
    by_cases hlt : t.endT < y.endT
    · simp only [push, if_pos hlt]
      refine List.pairwise_cons.mpr ⟨?_, h⟩
      intro b hb
      rcases hb with _ | hb
      · exact Nat.le_of_lt hlt
      · exact Nat.le_trans (Nat.le_of_lt hlt) (hy _ (by assumption))
    · simp only [push, if_neg hlt]
      refine List.pairwise_cons.mpr ⟨?_, ih hys⟩
      intro b hb
      rcases mem_push.mp hb with hb | hb
      · exact hy _ hb
      · subst hb
        exact Nat.not_lt.mp hlt

theorem push_split {q : List Task} (t : Task) (h : SortedQ q) :
    ∃ a b, q = a ++ b ∧ push q t = a ++ t :: b ∧
      (∀ x ∈ a, x.endT ≤ t.endT) ∧ (∀ x ∈ b, t.endT < x.endT) := by
  induction q with
  | nil => exact ⟨[], [], rfl, rfl, by simp, by simp⟩
  | cons y ys ih =>
    have hy := (List.pairwise_cons.mp h).1
    have hys := (List.pairwise_cons.mp h).2
    by_cases hlt : t.endT < y.endT
    · refine ⟨[], y :: ys, rfl, by simp [push, hlt], by simp, ?_⟩
      intro x hx
      rcases hx with _ | hx
      · exact hlt
      · exact Nat.lt_of_lt_of_le hlt (hy _ (by assumption))
    · obtain ⟨a, b, hab, hpush, ha, hb⟩ := ih hys
      refine ⟨y :: a, b, by simp [hab], by simp [push, hlt, hpush], ?_, hb⟩
      intro x hx
      rcases hx with _ | hx
      · exact Nat.not_lt.mp hlt
      · exact ha x (by assumption)

theorem foldl_push_all_eq (e : Nat) :
    ∀ (l acc : List Task), (∀ x ∈ l, x.endT = e) → (∀ y ∈ acc, y.endT ≤ e) →
      l.foldl push acc = acc ++ l := by
  intro l
  induction l with
  | nil => intro acc _ _; simp
  | cons x xs ih =>
    intro acc hl hacc
    have hx : x.endT = e := hl x (by simp)
    have hstep : push acc x = acc ++ [x] :=
      push_append_of_le (fun y hy => by rw [hx]; exact hacc y hy)
    have hacc' : ∀ y ∈ acc ++ [x], y.endT ≤ e := by
      intro y hy
      rcases List.mem_append.mp hy with hy | hy
      · exact hacc y hy
      · simp at hy; subst hy; exact Nat.le_of_eq hx
    calc (x :: xs).foldl push acc = xs.foldl push (acc ++ [x]) := by rw [List.foldl_cons, hstep]
    _ = (acc ++ [x]) ++ xs := ih (acc ++ [x]) (fun z hz => hl z (by simp [hz])) hacc'
    _ = acc ++ x :: xs := by simp

/-! ### Context-run lemmas -/

/-- Classifier: is this context method one of the `Repeat*` family? -/
def isRepeatCall : CtxMut → Bool
  | .mrepeat _ => true
  | _ => false

/-- Classifier: the deferred scheduler operation of a context method
routed through `Dispatch`, if any. -/
def deferOp : CtxMut → Option SchedOp
  | .mdefer op => some op
  | _ => none

theorem ctxApply_sched_extends (cw : CtxW) (m : CtxMut) (s : Sched)
    (h : cw.sched = some s) :
    ∃ q, (ctxApply cw m).sched = some { s with asyncQueue := s.asyncQueue ++ q } := by
  cases m with
  | mrepeat d =>
    by_cases ha : cw.asserted
    · exact ⟨[], by simp [ctxApply, h, ha]⟩
    · by_cases hc : cw.consumed
      · exact ⟨[], by simp [ctxApply, h, ha, hc]⟩
      · exact ⟨[], by simp [ctxApply, h, ha, hc]⟩
  | msetGroup g =>
    by_cases ha : cw.asserted
    · exact ⟨[], by simp [ctxApply, h, ha]⟩
    · exact ⟨[], by simp [ctxApply, h, ha]⟩
  | mclearGroup =>
    by_cases ha : cw.asserted
    · exact ⟨[], by simp [ctxApply, h, ha]⟩
    · exact ⟨[], by simp [ctxApply, h, ha]⟩
  | mdefer op =>
    by_cases ha : cw.asserted
    · exact ⟨[], by simp [ctxApply, h, ha]⟩
    · exact ⟨[.defer op], by simp [ctxApply, h, ha]⟩

theorem ctxRun_sched_extends (ops : List CtxMut) :
    ∀ (cw : CtxW) (s : Sched), cw.sched = some s →
      ∃ q, (ops.foldl ctxApply cw).sched = some { s with asyncQueue := s.asyncQueue ++ q } := by
  induction ops with
  | nil =>
    intro cw s h
    exact ⟨[], by simpa using h⟩
  | cons m ms ih =>
    intro cw s h
    obtain ⟨q1, h1⟩ := ctxApply_sched_extends cw m s h
    obtain ⟨q2, h2⟩ := ih (ctxApply cw m) _ h1
    refine ⟨q1 ++ q2, ?_⟩
    rw [List.foldl_cons, h2]
    simp

theorem ctxApply_endT_le (cw : CtxW) (m : CtxMut) :
    cw.task.endT ≤ (ctxApply cw m).task.endT := by
  cases hs : cw.sched with
  | none => simp [ctxApply, hs]
  | some s =>
    by_cases ha : cw.asserted
    · simp [ctxApply, hs, ha]
    · cases m with
      | mrepeat d =>
        by_cases hc : cw.consumed
        · simp [ctxApply, hs, ha, hc]
        · simp [ctxApply, hs, ha, hc]
      | msetGroup g => simp [ctxApply, hs, ha]
      | mclearGroup => simp [ctxApply, hs, ha]
      | mdefer op => simp [ctxApply, hs, ha]

theorem ctxRun_endT_le (ops : List CtxMut) :
    ∀ cw : CtxW, cw.task.endT ≤ (ops.foldl ctxApply cw).task.endT := by
  induction ops with
  | nil => intro cw; simp
  | cons m ms ih =>
    intro cw
    exact Nat.le_trans (ctxApply_endT_le cw m) (ih (ctxApply cw m))

theorem ctxApply_handler_eq (cw : CtxW) (m : CtxMut) :
    (ctxApply cw m).task.handler = cw.task.handler := by
  cases hs : cw.sched with
  | none => simp [ctxApply, hs]
  | some s =>
    by_cases ha : cw.asserted
    · simp [ctxApply, hs, ha]
    · cases m with
      | mrepeat d =>
        by_cases hc : cw.consumed
        · simp [ctxApply, hs, ha, hc]
        · simp [ctxApply, hs, ha, hc]
      | msetGroup g => simp [ctxApply, hs, ha]
      | mclearGroup => simp [ctxApply, hs, ha]
      | mdefer op => simp [ctxApply, hs, ha]

theorem ctxApply_core_of_not_repeat (cw : CtxW) (m : CtxMut)
    (hm : isRepeatCall m = false) :
    (ctxApply cw m).consumed = cw.consumed ∧
      (ctxApply cw m).repeatSignal = cw.repeatSignal ∧
      (ctxApply cw m).asserted = cw.asserted ∧
      (ctxApply cw m).task.endT = cw.task.endT ∧
      (ctxApply cw m).task.duration = cw.task.duration ∧
      (ctxApply cw m).task.repeated = cw.task.repeated ∧
      (ctxApply cw m).task.handler = cw.task.handler := by
  cases hs : cw.sched with
  | none => simp [ctxApply, hs]
  | some s =>
    by_cases ha : cw.asserted
    · simp [ctxApply, hs, ha]
    · cases m with
      | mrepeat d => simp [isRepeatCall] at hm
      | msetGroup g => simp [ctxApply, hs, ha]
      | mclearGroup => simp [ctxApply, hs, ha]
      | mdefer op => simp [ctxApply, hs, ha]

theorem ctxRun_core_of_no_repeat (ops : List CtxMut) :
    ∀ cw : CtxW, (∀ m ∈ ops, isRepeatCall m = false) →
      (ops.foldl ctxApply cw).consumed = cw.consumed ∧
        (ops.foldl ctxApply cw).repeatSignal = cw.repeatSignal ∧
        (ops.foldl ctxApply cw).asserted = cw.asserted ∧
        (ops.foldl ctxApply cw).task.endT = cw.task.endT ∧
        (ops.foldl ctxApply cw).task.duration = cw.task.duration ∧
        (ops.foldl ctxApply cw).task.repeated = cw.task.repeated ∧
        (ops.foldl ctxApply cw).task.handler = cw.task.handler := by
  induction ops with
  | nil => intro cw _; simp
  | cons m ms ih =>
    intro cw hops
    have h1 := ctxApply_core_of_not_repeat cw m (hops m (by simp))
    have h2 := ih (ctxApply cw m) (fun x hx => hops x (by simp [hx]))
    rw [List.foldl_cons]
    exact ⟨h2.1.trans h1.1, h2.2.1.trans h1.2.1, h2.2.2.1.trans h1.2.2.1,
      h2.2.2.2.1.trans h1.2.2.2.1, h2.2.2.2.2.1.trans h1.2.2.2.2.1,
      h2.2.2.2.2.2.1.trans h1.2.2.2.2.2.1, h2.2.2.2.2.2.2.trans h1.2.2.2.2.2.2⟩

theorem ctxRun_all_defer (ops : List CtxMut) :
    ∀ (cw : CtxW) (s : Sched), cw.sched = some s → cw.asserted = false →
      (∀ m ∈ ops, ∃ op, m = CtxMut.mdefer op) →
      ops.foldl ctxApply cw =
        { cw with sched := some { s with asyncQueue := s.asyncQueue ++ (ops.filterMap deferOp).map AsyncEntry.defer } } := by
  induction ops with
  | nil =>
    intro cw s h _ _
    cases cw
    simp_all
  | cons m ms ih =>
    intro cw s h ha hops
    obtain ⟨op, rfl⟩ := hops m (by simp)
    have hstep : ctxApply cw (.mdefer op) =
        { cw with sched := some { s with asyncQueue := s.asyncQueue ++ [.defer op] } } := by
      simp [ctxApply, h, ha]
    rw [List.foldl_cons, hstep]
    rw [ih { cw with sched := some { s with asyncQueue := s.asyncQueue ++ [.defer op] } }
      { s with asyncQueue := s.asyncQueue ++ [.defer op] } rfl ha
      (fun x hx => hops x (by simp [hx]))]
    simp [deferOp, List.filterMap_cons]

/-- Unfolding of one due-task dispatch iteration under the side
conditions "queue non-empty, first task due, validator passes". -/
theorem dispatchStep_eq (env : Env) (s : Sched) (t : Task) (rest : List Task)
    (hq : s.taskQueue = t :: rest) (hdue : t.endT ≤ s.now) (hv : s.validator = true) :
    dispatchStep env s =
      (let cw := (env.handlers t.handler).foldl ctxApply
        ⟨some { s with taskQueue := rest }, t, false, none, false⟩
       let s1 := cw.sched.getD { s with taskQueue := rest }
       match cw.repeatSignal with
       | some _ => some ({ s1 with taskQueue := push s1.taskQueue cw.task }, t)
       | none => some (s1, t)) := by
  simp [dispatchStep, hq, hdue, hv]

/-- Running a handler that calls `Repeat(d)` exactly once (with
arbitrary other non-repeat method calls around it): the context ends up
signalling re-insertion, with the task's deadline advanced by `d` from
its previous deadline, duration `d`, repeat counter incremented, same
handler, and the owner's task queue untouched. -/
theorem ctxRun_single_repeat (pre post : List CtxMut) (d : Nat) (s0 : Sched) (t : Task)
    (hpre : ∀ m ∈ pre, isRepeatCall m = false)
    (hpost : ∀ m ∈ post, isRepeatCall m = false) :
    ((pre ++ CtxMut.mrepeat (some d) :: post).foldl ctxApply ⟨some s0, t, false, none, false⟩).repeatSignal = some d ∧
      ((pre ++ CtxMut.mrepeat (some d) :: post).foldl ctxApply ⟨some s0, t, false, none, false⟩).task.endT = t.endT + d ∧
      ((pre ++ CtxMut.mrepeat (some d) :: post).foldl ctxApply ⟨some s0, t, false, none, false⟩).task.duration = d ∧
      ((pre ++ CtxMut.mrepeat (some d) :: post).foldl ctxApply ⟨some s0, t, false, none, false⟩).task.repeated = t.repeated + 1 ∧
      ((pre ++ CtxMut.mrepeat (some d) :: post).foldl ctxApply ⟨some s0, t, false, none, false⟩).task.handler = t.handler ∧
      ∃ q, ((pre ++ CtxMut.mrepeat (some d) :: post).foldl ctxApply ⟨some s0, t, false, none, false⟩).sched = some { s0 with asyncQueue := s0.asyncQueue ++ q } := by
  rw [List.foldl_append, List.foldl_cons]
  set cw1 : CtxW := List.foldl ctxApply ⟨some s0, t, false, none, false⟩ pre with hcw1
  have hcore1 := ctxRun_core_of_no_repeat pre ⟨some s0, t, false, none, false⟩ hpre
  rw [← hcw1] at hcore1
  simp only at hcore1
  obtain ⟨hc1, hr1, ha1, he1, hd1, hp1, hh1⟩ := hcore1
  have hs1' := ctxRun_sched_extends pre ⟨some s0, t, false, none, false⟩ s0 rfl
  rw [← hcw1] at hs1'
  obtain ⟨q1, hs1⟩ := hs1'
  have hstep : ctxApply cw1 (.mrepeat (some d)) =
      ⟨cw1.sched, ⟨cw1.task.endT + d, d, cw1.task.group, cw1.task.repeated + 1, cw1.task.handler⟩,
        true, some d, cw1.asserted⟩ := by
    simp [ctxApply, hs1, ha1, hc1]
  rw [hstep]
  have hcore2 := ctxRun_core_of_no_repeat post
    ⟨cw1.sched, ⟨cw1.task.endT + d, d, cw1.task.group, cw1.task.repeated + 1, cw1.task.handler⟩,
      true, some d, cw1.asserted⟩ hpost
  simp only at hcore2
  obtain ⟨hc2, hr2, ha2, he2, hd2, hp2, hh2⟩ := hcore2
  obtain ⟨q2, hs2⟩ := ctxRun_sched_extends post
    ⟨cw1.sched, ⟨cw1.task.endT + d, d, cw1.task.group, cw1.task.repeated + 1, cw1.task.handler⟩,
      true, some d, cw1.asserted⟩ { s0 with asyncQueue := s0.asyncQueue ++ q1 } hs1
  refine ⟨?_, ?_, ?_, ?_, ?_, q1 ++ q2, ?_⟩
  · exact hr2
  · rw [he2, he1]
  · exact hd2
  · rw [hp2, hp1]
  · rw [hh2, hh1]
  · rw [hs2]; simp

/-- Running a handler that makes no `Repeat*` call: the context ends up
with no re-insertion signal and the owner's task queue untouched. -/
theorem ctxRun_no_repeat (ops : List CtxMut) (s0 : Sched) (t : Task)
    (hops : ∀ m ∈ ops, isRepeatCall m = false) :
    (ops.foldl ctxApply ⟨some s0, t, false, none, false⟩).repeatSignal = none ∧
      ∃ q, (ops.foldl ctxApply ⟨some s0, t, false, none, false⟩).sched = some { s0 with asyncQueue := s0.asyncQueue ++ q } := by
  have hcore := ctxRun_core_of_no_repeat ops ⟨some s0, t, false, none, false⟩ hops
  obtain ⟨q, hs⟩ := ctxRun_sched_extends ops ⟨some s0, t, false, none, false⟩ s0 rfl
  exact ⟨hcore.2.1, q, hs⟩

/-! ### Claim theorems (first group) -/

/-- C2 (amended): for a task dispatched in a tick whose handler calls
`Repeat(newDuration)` exactly once, after the handler returns the same
task (same handler, repeat counter incremented by one, duration set to
`newDuration`) is re-inserted with deadline equal to the task's
PREVIOUS deadline plus `newDuration` — which coincides with
`now + newDuration` only when the task fired exactly on time; and if
the handler makes no `Repeat*` call, the task is discarded (the queue
keeps only the remaining tasks, so it can never fire again). -/
theorem claim_C2_repeat_or_discard (env : Env) (s : Sched) (t : Task) (rest : List Task)
    (hq : s.taskQueue = t :: rest) (hdue : t.endT ≤ s.now) (hv : s.validator = true) :
    (∀ pre post d, env.handlers t.handler = pre ++ CtxMut.mrepeat (some d) :: post →
        (∀ m ∈ pre, isRepeatCall m = false) → (∀ m ∈ post, isRepeatCall m = false) →
        ∃ s' t', dispatchStep env s = some (s', t) ∧ s'.taskQueue = push rest t' ∧
          t'.endT = t.endT + d ∧ t'.duration = d ∧ t'.repeated = t.repeated + 1 ∧
          t'.handler = t.handler)
  ∧ ((∀ m ∈ env.handlers t.handler, isRepeatCall m = false) →
      ∃ s', dispatchStep env s = some (s', t) ∧ s'.taskQueue = rest) := by
  constructor
  · intro pre post d hh hpre hpost
    have hds := dispatchStep_eq env s t rest hq hdue hv
    rw [hh] at hds
    obtain ⟨hsig, hend, hdur, hrep, hhand, q, hsched⟩ :=
      ctxRun_single_repeat pre post d { s with taskQueue := rest } t hpre hpost
    refine ⟨⟨s.now, push rest ((pre ++ CtxMut.mrepeat (some d) :: post).foldl ctxApply
          ⟨some { s with taskQueue := rest }, t, false, none, false⟩).task,
        s.asyncQueue ++ q, s.validator⟩,
      ((pre ++ CtxMut.mrepeat (some d) :: post).foldl ctxApply
        ⟨some { s with taskQueue := rest }, t, false, none, false⟩).task,
      ?_, rfl, hend, hdur, hrep, hhand⟩
    rw [hds]
    simp only [List.foldl_append, List.foldl_cons] at hsig hsched ⊢
    simp only [hsig, hsched, Option.getD_some]
  · intro hnor
    have hds := dispatchStep_eq env s t rest hq hdue hv
    obtain ⟨hsig, q, hsched⟩ :=
      ctxRun_no_repeat (env.handlers t.handler) { s with taskQueue := rest } t hnor
    refine ⟨⟨s.now, rest, s.asyncQueue ++ q, s.validator⟩, ?_, rfl⟩
    rw [hds]
    simp only [hsig, hsched, Option.getD_some]

theorem claim_C2_witness :
    ∃ s' t', dispatchStep ⟨fun _ => [CtxMut.mrepeat (some 7)], fun _ => []⟩
          ⟨20, [⟨10, 3, none, 0, 0⟩], [], true⟩ = some (s', ⟨10, 3, none, 0, 0⟩) ∧
        s'.taskQueue = push [] t' ∧ t'.endT = (⟨10, 3, none, 0, 0⟩ : Task).endT + 7 ∧
        t'.duration = 7 ∧ t'.repeated = (⟨10, 3, none, 0, 0⟩ : Task).repeated + 1 ∧
        t'.handler = (⟨10, 3, none, 0, 0⟩ : Task).handler :=
  (claim_C2_repeat_or_discard ⟨fun _ => [CtxMut.mrepeat (some 7)], fun _ => []⟩
      ⟨20, [⟨10, 3, none, 0, 0⟩], [], true⟩ ⟨10, 3, none, 0, 0⟩ [] rfl (by decide) rfl).1
    [] [] 7 rfl (by simp) (by simp)

/-- C2 as stated is false on the model: a task with deadline 10 fires
during a tick that has advanced `now` to 35; its handler calls
`Repeat(10)` once, and the task is re-inserted with deadline
20 (= previous deadline 10 + 10), not `now + newDuration = 45`. -/
theorem claim_C2_counterexample :
    dispatchStep ⟨fun _ => [CtxMut.mrepeat (some 10)], fun _ => []⟩
        ⟨35, [⟨10, 10, none, 0, 0⟩], [], true⟩ =
      some (⟨35, [⟨20, 10, none, 1, 0⟩], [], true⟩, ⟨10, 10, none, 0, 0⟩) ∧
    ¬ ((20 : Nat) = 35 + 10) :=
  ⟨rfl, by decide⟩

/-- C4: each non-`Repeat*` mutation method invoked from inside a
handler leaves the task queue untouched for the rest of the current
tick's task drain — the dispatch of such a task changes the queue only
by the pop itself — while the method's effect is appended to the
AsyncQueue as a deferred operation; that deferred entry has no effect
until it is executed by an async drain, which happens at the start of
the next tick, where running it applies the recorded scheduler
operation. -/
theorem claim_C4_deferred_mutations (env : Env) (s : Sched) (t : Task) (rest : List Task)
    (hq : s.taskQueue = t :: rest) (hdue : t.endT ≤ s.now) (hv : s.validator = true)
    (hdef : ∀ m ∈ env.handlers t.handler, ∃ op, m = CtxMut.mdefer op) :
    dispatchStep env s =
        some (⟨s.now, rest,
          s.asyncQueue ++ ((env.handlers t.handler).filterMap deferOp).map AsyncEntry.defer,
          s.validator⟩, t)
  ∧ ∀ (s2 : Sched) (op : SchedOp), runAsyncEntry env s2 (.defer op) = applySchedOp s2 op := by
  constructor
  · have hds := dispatchStep_eq env s t rest hq hdue hv
    have hrun := ctxRun_all_defer (env.handlers t.handler)
      ⟨some { s with taskQueue := rest }, t, false, none, false⟩
      { s with taskQueue := rest } rfl rfl hdef
    rw [hds, hrun]
    simp
  · intro s2 op
    rfl

theorem claim_C4_witness :
    dispatchStep ⟨fun _ => [CtxMut.mdefer (SchedOp.delayAll 5)], fun _ => []⟩
        ⟨8, [⟨3, 3, none, 0, 0⟩], [], true⟩ =
      some (⟨8, [], [AsyncEntry.defer (SchedOp.delayAll 5)], true⟩, ⟨3, 3, none, 0, 0⟩) ∧
    runAsyncEntry ⟨fun _ => [CtxMut.mdefer (SchedOp.delayAll 5)], fun _ => []⟩
        ⟨8, [], [], true⟩ (.defer (SchedOp.delayAll 5)) =
      applySchedOp ⟨8, [], [], true⟩ (SchedOp.delayAll 5) := by
  have h := claim_C4_deferred_mutations ⟨fun _ => [CtxMut.mdefer (SchedOp.delayAll 5)], fun _ => []⟩
    ⟨8, [⟨3, 3, none, 0, 0⟩], [], true⟩ ⟨3, 3, none, 0, 0⟩ [] rfl (by decide) rfl
    (by intro m hm; simp at hm; exact ⟨SchedOp.delayAll 5, hm⟩)
  exact ⟨h.1, h.2 ⟨8, [], [], true⟩ (SchedOp.delayAll 5)⟩

/-- C8: a live, not-yet-asserted context: a first `Repeat*` call on a
non-consumed context sets the (shared) consumed flag and records the
re-insertion signal; any `Repeat*` call on an already-consumed context
(the same handle or any copy, since the flag is shared) only sets the
assertion flag — a detected contract violation — and changes nothing
else, so the task is not re-inserted a second time. -/
theorem claim_C8_consume_once (cw : CtxW) (s : Sched) (d1 d2 : Option Nat)
    (hs : cw.sched = some s) (ha : cw.asserted = false) :
    (cw.consumed = false →
        (ctxApply cw (.mrepeat d1)).consumed = true ∧
          (ctxApply cw (.mrepeat d1)).repeatSignal = some (d1.getD cw.task.duration) ∧
          (ctxApply cw (.mrepeat d1)).asserted = false)
  ∧ (cw.consumed = true → ctxApply cw (.mrepeat d2) = { cw with asserted := true }) := by
  constructor
  · intro hc
    refine ⟨?_, ?_, ?_⟩ <;> simp [ctxApply, hs, ha, hc]
  · intro hc
    simp [ctxApply, hs, ha, hc]

theorem claim_C8_witness :
    ((ctxApply ⟨some ⟨0, [], [], true⟩, ⟨9, 4, none, 0, 0⟩, false, none, false⟩
        (.mrepeat none)).consumed = true ∧
      (ctxApply ⟨some ⟨0, [], [], true⟩, ⟨9, 4, none, 0, 0⟩, false, none, false⟩
          (.mrepeat none)).repeatSignal =
        some (Option.getD none (⟨9, 4, none, 0, 0⟩ : Task).duration) ∧
      (ctxApply ⟨some ⟨0, [], [], true⟩, ⟨9, 4, none, 0, 0⟩, false, none, false⟩
          (.mrepeat none)).asserted = false) ∧
    ctxApply ⟨some ⟨0, [], [], true⟩, ⟨13, 4, none, 1, 0⟩, true, some 4, false⟩
        (.mrepeat (some 6)) =
      ⟨some ⟨0, [], [], true⟩, ⟨13, 4, none, 1, 0⟩, true, some 4, true⟩ := by
  have h1 := claim_C8_consume_once
    ⟨some ⟨0, [], [], true⟩, ⟨9, 4, none, 0, 0⟩, false, none, false⟩ ⟨0, [], [], true⟩
    none none rfl rfl
  have h2 := claim_C8_consume_once
    ⟨some ⟨0, [], [], true⟩, ⟨13, 4, none, 1, 0⟩, true, some 4, false⟩ ⟨0, [], [], true⟩
    none (some 6) rfl rfl
  exact ⟨h1.1 rfl, h2.2 rfl⟩

/-- C1: after the owning Scheduler is destroyed (the weak reference
yields nothing), `IsExpired` returns true and every `TaskContext`
mutation method (`Repeat*`, `SetGroup`, `ClearGroup`, and all the
deferred `Schedule*`/`Async`/`Cancel*`/`Delay*`/`Reschedule*` methods)
leaves the context's observable state completely unchanged; being a
total function, the model also cannot crash. -/
theorem claim_C1_expired_noop (cw : CtxW) (m : CtxMut) (hdead : cw.sched = none) :
    ctxIsExpired cw = true ∧ ctxApply cw m = cw := by
  constructor
  · simp [ctxIsExpired, hdead]
  · simp [ctxApply, hdead]

theorem claim_C1_witness :
    ctxIsExpired ⟨none, ⟨10, 10, none, 0, 0⟩, false, none, false⟩ = true ∧
      ctxApply ⟨none, ⟨10, 10, none, 0, 0⟩, false, none, false⟩ (.mrepeat (some 5)) =
        ⟨none, ⟨10, 10, none, 0, 0⟩, false, none, false⟩ :=
  claim_C1_expired_noop ⟨none, ⟨10, 10, none, 0, 0⟩, false, none, false⟩ (.mrepeat (some 5)) rfl

/-- C3: a scheduler at virtual time 0 holding a single task of duration
10 whose handler calls `Repeat()` with no argument fires the task
exactly three times during a single `tick(35)`, at virtual deadlines
10, 20 and 30, observing repeat counters 0, 1 and 2, and leaves the
task re-enqueued for deadline 40 with counter 3. -/
theorem claim_C3_self_repeat :
    tick ⟨fun _ => [CtxMut.mrepeat none], fun _ => []⟩ 35 1 4
        ⟨0, [⟨10, 10, none, 0, 0⟩], [], true⟩ =
      ⟨⟨35, [⟨40, 10, none, 3, 0⟩], [], true⟩,
        [.fired ⟨10, 10, none, 0, 0⟩, .fired ⟨20, 10, none, 1, 0⟩,
          .fired ⟨30, 10, none, 2, 0⟩], true⟩ := by
  rfl

/-- C6: when the earliest task is due but the installed validator
returns false, the due-task drain stops without popping: nothing is
dispatched, the scheduler (including the vetoed task with its original
deadline, still at the front of the queue) is unchanged, so the task is
considered again on the next tick. -/
theorem claim_C6_validator_veto (env : Env) (fuel : Nat) (s : Sched) (t : Task)
    (rest : List Task) (hq : s.taskQueue = t :: rest) (hdue : t.endT ≤ s.now)
    (hv : s.validator = false) :
    drainTasks env fuel s = ⟨s, []⟩ ∧ dispatchStep env s = none := by
  have hstep : dispatchStep env s = none := by
    simp [dispatchStep, hq, hdue, hv]
  refine ⟨?_, hstep⟩
  cases fuel with
  | zero => rfl
  | succ n => simp [drainTasks, hstep]

theorem claim_C6_witness :
    drainTasks ⟨fun _ => [], fun _ => []⟩ 3 ⟨5, [⟨1, 1, none, 0, 0⟩], [], false⟩ =
        ⟨⟨5, [⟨1, 1, none, 0, 0⟩], [], false⟩, []⟩ ∧
      dispatchStep ⟨fun _ => [], fun _ => []⟩ ⟨5, [⟨1, 1, none, 0, 0⟩], [], false⟩ = none :=
  claim_C6_validator_veto ⟨fun _ => [], fun _ => []⟩ 3 ⟨5, [⟨1, 1, none, 0, 0⟩], [], false⟩
    ⟨1, 1, none, 0, 0⟩ [] rfl (by decide) rfl

/-- C9: `RescheduleAll(Δ)` maps every queued task to the same task with
deadline `now + Δ` and duration `Δ`, preserving the queue order and in
particular adding and removing nothing: the resulting holder is exactly
the element-wise update of the previous one. -/
theorem claim_C9_reschedule_all (s : Sched) (d : Nat) :
    (RescheduleAll s d).taskQueue =
        s.taskQueue.map (fun t => { t with endT := s.now + d, duration := d }) ∧
      (∀ t ∈ (RescheduleAll s d).taskQueue, t.endT = s.now + d ∧ t.duration = d) ∧
      (RescheduleAll s d).taskQueue.length = s.taskQueue.length := by
  have hmain : (RescheduleAll s d).taskQueue =
      s.taskQueue.map (fun t => { t with endT := s.now + d, duration := d }) := by
    show modifyIf s.taskQueue (fun t => some { t with endT := s.now + d, duration := d }) = _
    unfold modifyIf
    have h1 : ∀ l : List Task, l.filterMap
        (fun t => some ({ t with endT := s.now + d, duration := d } : Task)) =
        l.map (fun t => { t with endT := s.now + d, duration := d }) := by
      intro l
      induction l with
      | nil => rfl
      | cons x xs ih => simp [List.filterMap_cons, ih]
    have h2 : ∀ l : List Task, l.filter
        (fun t => (some ({ t with endT := s.now + d, duration := d } : Task)).isNone) = [] := by
      intro l
      induction l with
      | nil => rfl
      | cons x xs ih => simp [List.filter_cons, ih]
    have h1 := h1 s.taskQueue
    have h2 := h2 s.taskQueue
    rw [h1, h2]
    have := foldl_push_all_eq (s.now + d)
      (s.taskQueue.map (fun t => { t with endT := s.now + d, duration := d })) []
      (by intro x hx; simp at hx; obtain ⟨t, _, ht⟩ := hx; rw [← ht]) (by simp)
    simpa using this
  refine ⟨hmain, ?_, ?_⟩
  · intro t ht
    rw [hmain] at ht
    simp at ht
    obtain ⟨u, _, hu⟩ := ht
    rw [← hu]
    exact ⟨rfl, rfl⟩
  · rw [hmain]
    simp

/-- C10: the queue's equality and ordering depend only on the deadline:
`Task::operator==` is true whenever the two `_end` members are equal,
and both it and the `Compare` order are invariant under changing a
task's group, duration, handler, or repeat counter, so such changes
never affect a task's relative position. -/
theorem claim_C10_deadline_only (a b : Task) (g : Option Nat) (d r h : Nat) :
    (a.endT = b.endT → Task.eqEnd a b = true) ∧
      Task.eqEnd { a with group := g, duration := d, repeated := r, handler := h } b =
        Task.eqEnd a b ∧
      compareLess { a with group := g, duration := d, repeated := r, handler := h } b =
        compareLess a b ∧
      compareLess b { a with group := g, duration := d, repeated := r, handler := h } =
        compareLess b a := by
  refine ⟨?_, rfl, rfl, rfl⟩
  intro hend
  simp [Task.eqEnd, hend]

theorem claim_C10_witness :
    (⟨5, 1, none, 0, 0⟩ : Task).endT = (⟨5, 2, some 3, 7, 9⟩ : Task).endT ∧
      Task.eqEnd ⟨5, 1, none, 0, 0⟩ ⟨5, 2, some 3, 7, 9⟩ = true :=
  ⟨rfl, (claim_C10_deadline_only ⟨5, 1, none, 0, 0⟩ ⟨5, 2, some 3, 7, 9⟩ none 0 0 0).1 rfl⟩

/-! ### Drain lemmas for the ordering and async claims -/

theorem dispatchStep_some (env : Env) (s s' : Sched) (t : Task)
    (h : dispatchStep env s = some (s', t)) (hs : SortedQ s.taskQueue) :
    SortedQ s'.taskQueue ∧ (∀ x ∈ s'.taskQueue, t.endT ≤ x.endT) ∧
      t ∈ s.taskQueue ∧
      ∀ b, (∀ y ∈ s.taskQueue, b ≤ y.endT) → ∀ x ∈ s'.taskQueue, b ≤ x.endT := by
  cases hq : s.taskQueue with
  | nil => simp [dispatchStep, hq] at h
  | cons t0 rest =>
    rw [hq] at hs
    have hrest : SortedQ rest := (List.pairwise_cons.mp hs).2
    have hhead : ∀ x ∈ rest, t0.endT ≤ x.endT := (List.pairwise_cons.mp hs).1
    by_cases hdue : t0.endT ≤ s.now
    · by_cases hval : s.validator = true
      · simp only [dispatchStep, hq, hdue, hval, if_true] at h
        obtain ⟨qq, hsch⟩ := ctxRun_sched_extends (env.handlers t0.handler)
          ⟨some ⟨s.now, rest, s.asyncQueue, true⟩, t0, false, none, false⟩
          ⟨s.now, rest, s.asyncQueue, true⟩ rfl
        have hle : t0.endT ≤ ((env.handlers t0.handler).foldl ctxApply
            ⟨some ⟨s.now, rest, s.asyncQueue, true⟩, t0, false, none, false⟩).task.endT :=
          ctxRun_endT_le (env.handlers t0.handler)
            ⟨some ⟨s.now, rest, s.asyncQueue, true⟩, t0, false, none, false⟩
        rw [hsch] at h
        simp only [Option.getD_some] at h
        cases hsig : ((env.handlers t0.handler).foldl ctxApply
            ⟨some ⟨s.now, rest, s.asyncQueue, true⟩, t0, false, none, false⟩).repeatSignal with
        | none =>
          rw [hsig] at h
          simp only [Option.some.injEq, Prod.mk.injEq] at h
          obtain ⟨hA, hT⟩ := h
          subst hT
          subst hA
          refine ⟨hrest, hhead, by simp [hq], ?_⟩
          intro b hb x hx
          exact hb x (by simp [hq]; right; exact hx)
        | some d0 =>
          rw [hsig] at h
          simp only [Option.some.injEq, Prod.mk.injEq] at h
          obtain ⟨hA, hT⟩ := h
          subst hT
          subst hA
          refine ⟨push_sorted hrest, ?_, by simp [hq], ?_⟩
          · intro x hx
            rcases mem_push.mp hx with hx | hx
            · exact hhead x hx
            · subst hx; exact hle
          · intro b hb x hx
            rcases mem_push.mp hx with hx | hx
            · exact hb x (by simp [hq]; right; exact hx)
            · subst hx
              exact Nat.le_trans (hb t0 (by simp [hq])) hle
      · simp [dispatchStep, hq, hdue, hval] at h
    · simp [dispatchStep, hq, hdue] at h

theorem drainTasks_chain (env : Env) :
    ∀ (fuel : Nat) (s : Sched), SortedQ s.taskQueue →
      List.Pairwise (fun a b => a.endT ≤ b.endT) (drainTasks env fuel s).fired ∧
        ∀ b, (∀ y ∈ s.taskQueue, b ≤ y.endT) →
          ∀ u ∈ (drainTasks env fuel s).fired, b ≤ u.endT := by
  intro fuel
  induction fuel with
  | zero =>
    intro s _
    simp [drainTasks]
  | succ n ih =>
    intro s hs
    cases hstep : dispatchStep env s with
    | none => simp [drainTasks, hstep]
    | some p =>
      obtain ⟨s', t⟩ := p
      obtain ⟨hsorted', hbound', htmem, hdown⟩ := dispatchStep_some env s s' t hstep hs
      obtain ⟨hpw, hlb⟩ := ih s' hsorted'
      constructor
      · simp only [drainTasks, hstep]
        exact List.pairwise_cons.mpr ⟨fun u hu => hlb t.endT hbound' u hu, hpw⟩
      · intro b hb u hu
        simp only [drainTasks, hstep] at hu
        rcases List.mem_cons.mp hu with rfl | hu
        · exact hb u htmem
        · exact hlb b (hdown b hb) u hu

theorem applySchedOp_async_extends (s : Sched) (op : SchedOp) :
    ∃ app, (applySchedOp s op).asyncQueue = s.asyncQueue ++ app := by
  cases op with
  | schedule time group handler => exact ⟨[], by simp [applySchedOp, scheduleOp]⟩
  | async a => exact ⟨[.user a], rfl⟩
  | cancelAll => exact ⟨[], by simp [applySchedOp]⟩
  | cancelGroup g => exact ⟨[], by simp [applySchedOp]⟩
  | cancelGroupsOf gs => exact ⟨[], by simp [applySchedOp]⟩
  | delayAll d => exact ⟨[], by simp [applySchedOp]⟩
  | delayGroup g d => exact ⟨[], by simp [applySchedOp]⟩
  | rescheduleAll d => exact ⟨[], by simp [applySchedOp, RescheduleAll]⟩
  | rescheduleGroup g d => exact ⟨[], by simp [applySchedOp]⟩

theorem foldl_schedOp_async_extends (ops : List SchedOp) :
    ∀ s : Sched, ∃ app, (ops.foldl applySchedOp s).asyncQueue = s.asyncQueue ++ app := by
  induction ops with
  | nil => intro s; exact ⟨[], by simp⟩
  | cons op rest ih =>
    intro s
    obtain ⟨a1, h1⟩ := applySchedOp_async_extends s op
    obtain ⟨a2, h2⟩ := ih (applySchedOp s op)
    exact ⟨a1 ++ a2, by rw [List.foldl_cons, h2, h1, List.append_assoc]⟩

theorem runAsyncEntry_async_extends (env : Env) (s : Sched) (e : AsyncEntry) :
    ∃ app, (runAsyncEntry env s e).asyncQueue = s.asyncQueue ++ app := by
  cases e with
  | defer op => exact applySchedOp_async_extends s op
  | user a => exact foldl_schedOp_async_extends (env.asyncs a) s

theorem drainAsyncs_completed (env : Env) :
    ∀ (fuel : Nat) (s : Sched), (drainAsyncs env fuel s).completed = true →
      (drainAsyncs env fuel s).log.take s.asyncQueue.length = s.asyncQueue ∧
        (drainAsyncs env fuel s).sched.asyncQueue = [] := by
  intro fuel
  induction fuel with
  | zero =>
    intro s hc
    simp only [drainAsyncs] at hc ⊢
    have : s.asyncQueue = [] := by
      cases hq : s.asyncQueue with
      | nil => rfl
      | cons e r => rw [hq] at hc; simp [List.isEmpty] at hc
    simp [this]
  | succ n ih =>
    intro s hc
    cases hq : s.asyncQueue with
    | nil =>
      simp only [drainAsyncs, hq]
      simp
    | cons e rest =>
      simp only [drainAsyncs, hq] at hc ⊢
      obtain ⟨app, happ⟩ :=
        runAsyncEntry_async_extends env { s with asyncQueue := rest } e
      simp only at happ
      obtain ⟨hlog, hfin⟩ := ih (runAsyncEntry env { s with asyncQueue := rest } e) hc
      rw [happ] at hlog
      refine ⟨?_, hfin⟩
      simp only [List.length_cons, List.take_succ_cons, List.cons.injEq, true_and]
      have := congrArg (fun l => l.take rest.length) hlog
      simp only at this
      rw [List.take_take, Nat.min_eq_left (by simp)] at this
      rw [this]
      exact List.take_left rest app

/-! ### Claim theorems (second group) -/

/-- C5: within a single tick, tasks are dispatched in non-decreasing
deadline order (the list of dispatched tasks of any due-task drain of a
deadline-sorted queue is pairwise ordered by deadline); and among equal
deadlines dispatch follows the queue's stable tie-break: inserting into
the sorted queue places a new task after every already-queued task with
a deadline less than or equal to it and before every strictly later
one, i.e. equal-deadline tasks stay in insertion order. -/
theorem claim_C5_dispatch_order (env : Env) (fuel : Nat) (s : Sched) (q : List Task)
    (t : Task) (hs : SortedQ s.taskQueue) (hq : SortedQ q) :
    List.Pairwise (fun a b => a.endT ≤ b.endT) (drainTasks env fuel s).fired ∧
      ∃ a b, q = a ++ b ∧ push q t = a ++ t :: b ∧
        (∀ x ∈ a, x.endT ≤ t.endT) ∧ (∀ x ∈ b, t.endT < x.endT) :=
  ⟨(drainTasks_chain env fuel s hs).1, push_split t hq⟩

theorem claim_C5_witness :
    List.Pairwise (fun a b => a.endT ≤ b.endT)
        (drainTasks ⟨fun _ => [], fun _ => []⟩ 3
          ⟨9, [⟨4, 4, none, 0, 0⟩, ⟨7, 7, none, 0, 1⟩], [], true⟩).fired ∧
      ∃ a b, [⟨4, 4, none, 0, 0⟩, ⟨7, 7, none, 0, 1⟩] = a ++ b ∧
        push [⟨4, 4, none, 0, 0⟩, ⟨7, 7, none, 0, 1⟩] ⟨4, 1, none, 0, 2⟩ = a ++ ⟨4, 1, none, 0, 2⟩ :: b ∧
        (∀ x ∈ a, x.endT ≤ (⟨4, 1, none, 0, 2⟩ : Task).endT) ∧
        (∀ x ∈ b, (⟨4, 1, none, 0, 2⟩ : Task).endT < x.endT) :=
  claim_C5_dispatch_order ⟨fun _ => [], fun _ => []⟩ 3
    ⟨9, [⟨4, 4, none, 0, 0⟩, ⟨7, 7, none, 0, 1⟩], [], true⟩
    [⟨4, 4, none, 0, 0⟩, ⟨7, 7, none, 0, 1⟩] ⟨4, 1, none, 0, 2⟩
    (by simp [SortedQ]) (by simp [SortedQ])

/-- C7: when the async drain completes within its fuel, the execution
log starts with exactly the entries that were queued at the start of
the tick, in FIFO order (each runs exactly once, on the tick after its
insertion), and the async holder ends empty — so every entry enqueued
by an earlier async during the same drain also ran in that same tick;
moreover every tick's event log is an async-run segment followed by a
task-firing segment: the async drain completes before any due task is
dispatched. -/
theorem claim_C7_async_fifo (env : Env) (fuel : Nat) (s : Sched) :
    ((drainAsyncs env fuel s).completed = true →
        (drainAsyncs env fuel s).log.take s.asyncQueue.length = s.asyncQueue ∧
          (drainAsyncs env fuel s).sched.asyncQueue = [])
  ∧ ∀ dt fuelT, ∃ (alog : List AsyncEntry) (tlog : List Task),
      (tick env dt fuel fuelT s).events =
        alog.map TickEv.arun ++ tlog.map TickEv.fired := by
  constructor
  · exact drainAsyncs_completed env fuel s
  · intro dt fuelT
    exact ⟨(drainAsyncs env fuel { s with now := s.now + dt }).log,
      (drainTasks env fuelT (drainAsyncs env fuel { s with now := s.now + dt }).sched).fired,
      rfl⟩

theorem claim_C7_witness :
    ((drainAsyncs ⟨fun _ => [], fun n => if n = 0 then [SchedOp.async 1] else []⟩ 3
          ⟨0, [], [AsyncEntry.user 0], true⟩).completed = true →
        (drainAsyncs ⟨fun _ => [], fun n => if n = 0 then [SchedOp.async 1] else []⟩ 3
              ⟨0, [], [AsyncEntry.user 0], true⟩).log.take
            ([AsyncEntry.user 0] : List AsyncEntry).length = [AsyncEntry.user 0] ∧
          (drainAsyncs ⟨fun _ => [], fun n => if n = 0 then [SchedOp.async 1] else []⟩ 3
              ⟨0, [], [AsyncEntry.user 0], true⟩).sched.asyncQueue = []) ∧
      ∃ (alog : List AsyncEntry) (tlog : List Task),
        (tick ⟨fun _ => [], fun n => if n = 0 then [SchedOp.async 1] else []⟩ 2 3 2
            ⟨0, [], [AsyncEntry.user 0], true⟩).events =
          alog.map TickEv.arun ++ tlog.map TickEv.fired :=
  ⟨(claim_C7_async_fifo ⟨fun _ => [], fun n => if n = 0 then [SchedOp.async 1] else []⟩ 3
      ⟨0, [], [AsyncEntry.user 0], true⟩).1,
    (claim_C7_async_fifo ⟨fun _ => [], fun n => if n = 0 then [SchedOp.async 1] else []⟩ 3
      ⟨0, [], [AsyncEntry.user 0], true⟩).2 2 2⟩

end TaskSched
